import Mathlib

/-!
# Saturating negation of a Q7 vector: `riscv_negate_q7`

A shallow embedding of `src/BasicMathFunctions/riscv_negate_q7.c` and the
properties of it that the specification states.

Memory is one flat array of cells, each holding an integer; `pSrc` and `pDst`
are addresses into it, so that distinct buffers and the in-place call
(`pSrc == pDst`) are both instances of the same definitions.  A load or a store
outside the array fails (`none`).  A store converts the stored `int` to `q7_t`.
The two compile-time alternatives (`USE_DSP_RISCV` defined or not) are selected
by a boolean argument.
-/

namespace NegateQ7

/-! ## Data model -/

/-- The range of a `q7_t` sample: the 8-bit signed integers. -/
def Q7 (v : Int) : Prop := -128 ≤ v ∧ v ≤ 127

instance (v : Int) : Decidable (Q7 v) :=
  inferInstanceAs (Decidable (-128 ≤ v ∧ v ≤ 127))

/-- Conversion of an `int` to `q7_t`, as done by a cast `(q7_t) x` and by every
assignment to a `q7_t` object: reduction to the 8-bit signed range. -/
def toQ7 (x : Int) : Int := (x + 128) % 256 - 128

/-- Read of one `q7_t` cell, `*p`. -/
def load (mem : List Int) (p : Nat) : Option Int := mem[p]?

/-- Write of one `q7_t` cell, `*p = x`, with the conversion of `x` to `q7_t`. -/
def store (mem : List Int) (p : Nat) (x : Int) : Option (List Int) :=
  if p < mem.length then some (mem.set p (toQ7 x)) else none

/-- The packed vector type `charV`: four 8-bit lanes, lane `k` being the byte at
offset `k` of the word it is loaded from. -/
structure charV where
  e0 : Int
  e1 : Int
  e2 : Int
  e3 : Int
deriving DecidableEq, Repr

/-- Read of a packed lane group, `*(charV*)p`: the four cells `p .. p+3`. -/
def loadV (mem : List Int) (p : Nat) : Option charV :=
  (load mem p).bind fun a =>
  (load mem (p + 1)).bind fun b =>
  (load mem (p + 2)).bind fun c =>
  (load mem (p + 3)).bind fun d =>
  some ⟨a, b, c, d⟩

/-- Modelled from the spec: the negation of one 8-bit lane by the packed negate
primitive, which is declared in `riscv_math.h` and not part of the sources at
hand.  The spec describes it as raw two's-complement negation without overflow
detection, in which the negation of -128 wraps back to -128. -/
def neg8 (v : Int) : Int := (-v + 128) % 256 - 128

/-- Modelled from the spec: the packed negate primitive `neg4` of
`riscv_math.h`, which applies the 8-bit negation to all four lanes at once. -/
def neg4 (x : charV) : charV := ⟨neg8 x.e0, neg8 x.e1, neg8 x.e2, neg8 x.e3⟩

/-- The machine state the loops of the kernel work on: the memory and the two
cursors.  The loop counter `blkCnt` is the argument the loops recurse on. -/
structure State where
  mem : List Int
  pSrc : Nat
  pDst : Nat
deriving DecidableEq, Repr

/-! ## The kernel -/

/-- The expression stored by the scalar loop,
`(in == (q7_t) 0x80) ? 0x7f : -in`, as an `int`. -/
def scalarExpr (inp : Int) : Int := if inp = toQ7 0x80 then 0x7f else -inp

/-- The expression stored for one lane by the unrolled loop,
`(VectInC[k] == -128) ? 0x7f : VectInC[k]`, as an `int`. -/
def laneExpr (c : Int) : Int := if c = -128 then 0x7f else c

/-- The loop `while (blkCnt > 0u) { in = *pSrc++; *pDst++ = ...; blkCnt--; }`
(lines 111-120). -/
def scalarLoop : Nat → State → Option State
  | 0, s => some s
  | blkCnt + 1, s =>
    (load s.mem s.pSrc).bind fun inp =>
    (store s.mem s.pDst (scalarExpr inp)).bind fun mem =>
    scalarLoop blkCnt ⟨mem, s.pSrc + 1, s.pDst + 1⟩

/-- The unrolled loop (lines 85-100): one packed load, `neg4`, four stores with
the per-lane saturation check, `pSrc += 4`, `blkCnt--`. -/
def wideLoop : Nat → State → Option State
  | 0, s => some s
  | blkCnt + 1, s =>
    (loadV s.mem s.pSrc).bind fun VectInA =>
    let VectInC := neg4 VectInA
    (store s.mem s.pDst (laneExpr VectInC.e0)).bind fun m1 =>
    (store m1 (s.pDst + 1) (laneExpr VectInC.e1)).bind fun m2 =>
    (store m2 (s.pDst + 2) (laneExpr VectInC.e2)).bind fun m3 =>
    (store m3 (s.pDst + 3) (laneExpr VectInC.e3)).bind fun m4 =>
    wideLoop blkCnt ⟨m4, s.pSrc + 4, s.pDst + 4⟩

/-- The function `riscv_negate_q7`, run to its final state.  With
`USE_DSP_RISCV` the unrolled loop runs `blockSize >> 2` times and the scalar
loop `blockSize % 4` times; without it the scalar loop runs `blockSize` times.
`blockSize` is a `uint32_t`; it is only shifted, reduced and counted down. -/
def run (USE_DSP_RISCV : Bool) (s : State) (blockSize : Nat) : Option State :=
  if USE_DSP_RISCV then
    (wideLoop (blockSize >>> 2) s).bind fun s1 => scalarLoop (blockSize % 4) s1
  else
    scalarLoop blockSize s

/-- The function `riscv_negate_q7(pSrc, pDst, blockSize)` as a transformer of
the memory. -/
def riscv_negate_q7 (USE_DSP_RISCV : Bool) (mem : List Int) (pSrc pDst blockSize : Nat) :
    Option (List Int) :=
  (run USE_DSP_RISCV ⟨mem, pSrc, pDst⟩ blockSize).map fun s => s.mem

/-- A call of the kernel on a whole buffer, as in the spec's `negate(src)`: the
source is laid out at address 0, a zeroed destination of the same length right
after it, and the destination is returned. -/
def negate (USE_DSP_RISCV : Bool) (src : List Int) : Option (List Int) :=
  (riscv_negate_q7 USE_DSP_RISCV (src ++ List.replicate src.length 0) 0 src.length
    src.length).map fun m => m.drop src.length

/-! ## Reference definitions, following the spec's words -/

/-- The spec's `saturate`: `127 if x > 127`, `x` otherwise. -/
def saturate (x : Int) : Int := if x > 127 then 127 else x

/-- The spec's rule per element: `127 if input == -128`, `-input` otherwise. -/
def negRule (v : Int) : Int := if v = -128 then 127 else -v

/-- Two address ranges of `n` cells that do not overlap. -/
def Distinct (p q n : Nat) : Prop := p + n ≤ q ∨ q + n ≤ p

instance (p q n : Nat) : Decidable (Distinct p q n) :=
  inferInstanceAs (Decidable (p + n ≤ q ∨ q + n ≤ p))

/-- The buffer of `n` cells at address `p`. -/
def buf (mem : List Int) (p n : Nat) : List Int := (mem.drop p).take n

/-- Every sample of the buffer of `n` cells at address `p` is a Q7 value. -/
def Q7Buf (mem : List Int) (p n : Nat) : Prop := ∀ v ∈ buf mem p n, Q7 v

instance (mem : List Int) (p n : Nat) : Decidable (Q7Buf mem p n) :=
  inferInstanceAs (Decidable (∀ v ∈ buf mem p n, Q7 v))

/-- The contents of memory after an elementwise pass with `g` from `pSrc` to
`pDst` over `n` cells, cell by cell. -/
def passCell (g : Int → Int) (mem : List Int) (pSrc pDst n j : Nat) : Option Int :=
  if pDst ≤ j ∧ j < pDst + n then (mem[pSrc + (j - pDst)]?).map g else mem[j]?

/-! ## The kernel with a log of what it does

The same loops, which besides the state return the list of the loop-body
executions and of the cell accesses they perform, in the order of execution.
Each entry is tagged with the loop it belongs to (`true` for the unrolled
loop, `false` for the scalar loop). -/

/-- One entry of the log: a loop body starts, a cell is read, a cell is
written. -/
inductive Ev where
  | iter (wide : Bool)
  | rd (wide : Bool) (p : Nat)
  | wr (wide : Bool) (p : Nat)
deriving DecidableEq, Repr

/-- The scalar loop (lines 111-120) with its log. -/
def scalarLoopT : Nat → State → Option (State × List Ev)
  | 0, s => some (s, [])
  | blkCnt + 1, s =>
    (load s.mem s.pSrc).bind fun inp =>
    (store s.mem s.pDst (scalarExpr inp)).bind fun mem =>
    (scalarLoopT blkCnt ⟨mem, s.pSrc + 1, s.pDst + 1⟩).map fun r =>
      (r.1, Ev.iter false :: Ev.rd false s.pSrc :: Ev.wr false s.pDst :: r.2)

/-- The unrolled loop (lines 85-100) with its log; the packed load reads the
four cells `pSrc .. pSrc+3`. -/
def wideLoopT : Nat → State → Option (State × List Ev)
  | 0, s => some (s, [])
  | blkCnt + 1, s =>
    (loadV s.mem s.pSrc).bind fun VectInA =>
    let VectInC := neg4 VectInA
    (store s.mem s.pDst (laneExpr VectInC.e0)).bind fun m1 =>
    (store m1 (s.pDst + 1) (laneExpr VectInC.e1)).bind fun m2 =>
    (store m2 (s.pDst + 2) (laneExpr VectInC.e2)).bind fun m3 =>
    (store m3 (s.pDst + 3) (laneExpr VectInC.e3)).bind fun m4 =>
    (wideLoopT blkCnt ⟨m4, s.pSrc + 4, s.pDst + 4⟩).map fun r =>
      (r.1, Ev.iter true :: Ev.rd true s.pSrc :: Ev.rd true (s.pSrc + 1) ::
        Ev.rd true (s.pSrc + 2) :: Ev.rd true (s.pSrc + 3) ::
        Ev.wr true s.pDst :: Ev.wr true (s.pDst + 1) :: Ev.wr true (s.pDst + 2) ::
        Ev.wr true (s.pDst + 3) :: r.2)

/-- The function `riscv_negate_q7` with its log: the log of the unrolled loop
followed by the log of the scalar loop. -/
def runT (USE_DSP_RISCV : Bool) (s : State) (blockSize : Nat) : Option (State × List Ev) :=
  if USE_DSP_RISCV then
    (wideLoopT (blockSize >>> 2) s).bind fun r1 =>
    (scalarLoopT (blockSize % 4) r1.1).map fun r2 => (r2.1, r1.2 ++ r2.2)
  else
    scalarLoopT blockSize s

/-- The addresses read by the given loop, in order. -/
def reads (wide : Bool) (tr : List Ev) : List Nat :=
  tr.filterMap fun e =>
    match e with
    | Ev.rd w p => if w = wide then some p else none
    | _ => none

/-- The addresses written by the given loop, in order. -/
def writes (wide : Bool) (tr : List Ev) : List Nat :=
  tr.filterMap fun e =>
    match e with
    | Ev.wr w p => if w = wide then some p else none
    | _ => none

/-- The number of executions of the body of the given loop. -/
def iters (wide : Bool) (tr : List Ev) : Nat := tr.count (Ev.iter wide)

/-! ## Arithmetic of one sample -/

theorem toQ7_of_Q7 {v : Int} (h : Q7 v) : toQ7 v = v := by
  unfold Q7 at h
  unfold toQ7
  omega

theorem toQ7_range (x : Int) : Q7 (toQ7 x) := by
  unfold Q7 toQ7
  omega

theorem scalarExpr_eq_negRule (v : Int) : scalarExpr v = negRule v := by
  unfold scalarExpr negRule toQ7
  norm_num

theorem negRule_range {v : Int} (h : Q7 v) : Q7 (negRule v) := by
  unfold Q7 at *
  unfold negRule
  split <;> omega

theorem laneExpr_neg8 {v : Int} (h : Q7 v) : laneExpr (neg8 v) = negRule v := by
  unfold Q7 at h
  unfold laneExpr neg8 negRule
  split <;> split <;> omega

/-! ## The loops -/

theorem scalarLoop_spec (n : Nat) : ∀ (mem : List Int) (pSrc pDst : Nat),
    pSrc + n ≤ mem.length → pDst + n ≤ mem.length → (pDst ≤ pSrc ∨ pSrc + n ≤ pDst) →
    ∃ m, scalarLoop n ⟨mem, pSrc, pDst⟩ = some ⟨m, pSrc + n, pDst + n⟩ ∧
      m.length = mem.length ∧
      ∀ j, m[j]? = passCell (fun v => toQ7 (scalarExpr v)) mem pSrc pDst n j := by
  induction n with
  | zero =>
    intro mem pSrc pDst _ _ _
    refine ⟨mem, rfl, rfl, fun j => ?_⟩
    have h0 : ¬ (pDst ≤ j ∧ j < pDst + 0) := by omega
    unfold passCell
    rw [if_neg h0]
  | succ n ih =>
    intro mem pSrc pDst hS hD hO
    have hs : pSrc < mem.length := by omega
    have hd : pDst < mem.length := by omega
    obtain ⟨m, hm, hlen, hcell⟩ := ih (mem.set pDst (toQ7 (scalarExpr mem[pSrc])))
      (pSrc + 1) (pDst + 1) (by simp; omega) (by simp; omega) (by omega)
    refine ⟨m, ?_, by simpa using hlen, ?_⟩
    · simp only [scalarLoop, load, store, List.getElem?_eq_getElem hs, Option.some_bind, hd,
        if_true, hm]
      simp [Nat.add_assoc, Nat.add_comm 1 n]
    · intro j
      rw [hcell j]
      simp only [passCell, List.getElem?_set]
      by_cases h1 : pDst = j
      · subst h1
        have h2 : ¬ (pDst + 1 ≤ pDst ∧ pDst < pDst + 1 + n) := by omega
        have h3 : pDst ≤ pDst ∧ pDst < pDst + (n + 1) := by omega
        simp [h2, h3, hd, List.getElem?_eq_getElem hs]
      · by_cases h2 : pDst + 1 ≤ j ∧ j < pDst + 1 + n
        · have h3 : pDst ≤ j ∧ j < pDst + (n + 1) := by omega
          have h5 : pSrc + 1 + (j - (pDst + 1)) = pSrc + (j - pDst) := by omega
          have h4 : pDst ≠ pSrc + (j - pDst) := by omega
          rw [if_pos h2, if_pos h3, h5, if_neg h4]
        · have h3 : ¬ (pDst ≤ j ∧ j < pDst + (n + 1)) := by omega
          rw [if_neg h2, if_neg h3, if_neg h1]

theorem getElem?_set4 (mem : List Int) (p : Nat) (a b c d : Int) (j : Nat)
    (h : p + 3 < mem.length) :
    ((((mem.set p a).set (p + 1) b).set (p + 2) c).set (p + 3) d)[j]? =
      if j = p then some a else if j = p + 1 then some b else if j = p + 2 then some c
      else if j = p + 3 then some d else mem[j]? := by
  simp only [List.getElem?_set, List.length_set]
  have h0 : p < mem.length := by omega
  have h1 : p + 1 < mem.length := by omega
  have h2 : p + 2 < mem.length := by omega
  split_ifs <;> first | rfl | omega

theorem wideLoop_spec (n : Nat) : ∀ (mem : List Int) (pSrc pDst : Nat),
    pSrc + 4 * n ≤ mem.length → pDst + 4 * n ≤ mem.length →
    (pDst ≤ pSrc ∨ pSrc + 4 * n ≤ pDst) →
    ∃ m, wideLoop n ⟨mem, pSrc, pDst⟩ = some ⟨m, pSrc + 4 * n, pDst + 4 * n⟩ ∧
      m.length = mem.length ∧
      ∀ j, m[j]? = passCell (fun v => toQ7 (laneExpr (neg8 v))) mem pSrc pDst (4 * n) j := by
  induction n with
  | zero =>
    intro mem pSrc pDst _ _ _
    refine ⟨mem, rfl, rfl, fun j => ?_⟩
    have h0 : ¬ (pDst ≤ j ∧ j < pDst + 4 * 0) := by omega
    unfold passCell
    rw [if_neg h0]
  | succ n ih =>
    intro mem pSrc pDst hS hD hO
    obtain ⟨a, hs0⟩ : ∃ a, mem[pSrc]? = some a :=
      ⟨_, List.getElem?_eq_getElem (by omega)⟩
    obtain ⟨b, hs1⟩ : ∃ b, mem[pSrc + 1]? = some b :=
      ⟨_, List.getElem?_eq_getElem (by omega)⟩
    obtain ⟨c, hs2⟩ : ∃ c, mem[pSrc + 2]? = some c :=
      ⟨_, List.getElem?_eq_getElem (by omega)⟩
    obtain ⟨d, hs3⟩ : ∃ d, mem[pSrc + 3]? = some d :=
      ⟨_, List.getElem?_eq_getElem (by omega)⟩
    have hd0 : pDst < mem.length := by omega
    have hd1 : pDst + 1 < mem.length := by omega
    have hd2 : pDst + 2 < mem.length := by omega
    have hd3 : pDst + 3 < mem.length := by omega
    obtain ⟨m, hm, hlen, hcell⟩ := ih
      ((((mem.set pDst (toQ7 (laneExpr (neg8 a)))).set (pDst + 1)
        (toQ7 (laneExpr (neg8 b)))).set (pDst + 2)
        (toQ7 (laneExpr (neg8 c)))).set (pDst + 3)
        (toQ7 (laneExpr (neg8 d))))
      (pSrc + 4) (pDst + 4) (by simp; omega) (by simp; omega) (by omega)
    have e1 : pSrc + 4 + 4 * n = pSrc + 4 * (n + 1) := by omega
    have e2 : pDst + 4 + 4 * n = pDst + 4 * (n + 1) := by omega
    refine ⟨m, ?_, by simpa using hlen, ?_⟩
    · rw [e1, e2] at hm
      simp only [wideLoop, loadV, load, store, neg4, hs0, hs1, hs2, hs3, Option.some_bind,
        List.length_set, hd0, hd1, hd2, hd3, if_true, hm]
    · intro j
      rw [hcell j]
      unfold passCell
      simp only [getElem?_set4 mem pDst _ _ _ _ _ hd3]
      by_cases h2 : pDst + 4 ≤ j ∧ j < pDst + 4 + 4 * n
      · have h3 : pDst ≤ j ∧ j < pDst + 4 * (n + 1) := by omega
        have h5 : pSrc + 4 + (j - (pDst + 4)) = pSrc + (j - pDst) := by omega
        rw [if_pos h2, if_pos h3, h5, if_neg (by omega), if_neg (by omega), if_neg (by omega),
          if_neg (by omega)]
      · rw [if_neg h2]
        by_cases h3 : pDst ≤ j ∧ j < pDst + 4 * (n + 1)
        · rw [if_pos h3]
          have h4 : j = pDst ∨ j = pDst + 1 ∨ j = pDst + 2 ∨ j = pDst + 3 := by omega
          rcases h4 with h4 | h4 | h4 | h4
          · have h6 : pSrc + (j - pDst) = pSrc := by omega
            rw [if_pos h4, h6, hs0]
            rfl
          · have h6 : pSrc + (j - pDst) = pSrc + 1 := by omega
            rw [if_neg (by omega), if_pos h4, h6, hs1]
            rfl
          · have h6 : pSrc + (j - pDst) = pSrc + 2 := by omega
            rw [if_neg (by omega), if_neg (by omega), if_pos h4, h6, hs2]
            rfl
          · have h6 : pSrc + (j - pDst) = pSrc + 3 := by omega
            rw [if_neg (by omega), if_neg (by omega), if_neg (by omega), if_pos h4, h6, hs3]
            rfl
        · rw [if_neg h3, if_neg (by omega), if_neg (by omega), if_neg (by omega),
            if_neg (by omega)]

theorem Q7Buf_get {mem : List Int} {p n : Nat} (hQ : Q7Buf mem p n) {i : Nat} (hi : i < n)
    {v : Int} (hv : mem[p + i]? = some v) : Q7 v := by
  apply hQ v
  rw [List.mem_iff_getElem?]
  refine ⟨i, ?_⟩
  unfold buf
  rw [List.getElem?_take, if_pos hi, List.getElem?_drop]
  exact hv

theorem passCell_congr {g g' : Int → Int} {mem : List Int} {pSrc pDst n : Nat}
    (h : ∀ i, i < n → ∀ v, mem[pSrc + i]? = some v → g v = g' v) (j : Nat) :
    passCell g mem pSrc pDst n j = passCell g' mem pSrc pDst n j := by
  unfold passCell
  by_cases hj : pDst ≤ j ∧ j < pDst + n
  · rw [if_pos hj, if_pos hj]
    cases hv : mem[pSrc + (j - pDst)]? with
    | none => rfl
    | some v =>
      have := h (j - pDst) (by omega) v hv
      simp [this]
  · rw [if_neg hj, if_neg hj]

theorem run_spec (b : Bool) (mem : List Int) (pSrc pDst n : Nat)
    (hS : pSrc + n ≤ mem.length) (hD : pDst + n ≤ mem.length)
    (hO : pDst ≤ pSrc ∨ pSrc + n ≤ pDst) (hQ : Q7Buf mem pSrc n) :
    ∃ m, run b ⟨mem, pSrc, pDst⟩ n = some ⟨m, pSrc + n, pDst + n⟩ ∧
      m.length = mem.length ∧ ∀ j, m[j]? = passCell negRule mem pSrc pDst n j := by
  have hgS : ∀ i, i < n → ∀ v, mem[pSrc + i]? = some v →
      (fun v => toQ7 (scalarExpr v)) v = negRule v := by
    intro i hi v hv
    have hq := Q7Buf_get hQ hi hv
    show toQ7 (scalarExpr v) = negRule v
    rw [scalarExpr_eq_negRule, toQ7_of_Q7 (negRule_range hq)]
  have hgW : ∀ i, i < n → ∀ v, mem[pSrc + i]? = some v →
      (fun v => toQ7 (laneExpr (neg8 v))) v = negRule v := by
    intro i hi v hv
    have hq := Q7Buf_get hQ hi hv
    show toQ7 (laneExpr (neg8 v)) = negRule v
    rw [laneExpr_neg8 hq, toQ7_of_Q7 (negRule_range hq)]
  cases b with
  | false =>
    obtain ⟨m, hm, hlen, hcell⟩ := scalarLoop_spec n mem pSrc pDst hS hD hO
    refine ⟨m, ?_, hlen, fun j => ?_⟩
    · simpa [run] using hm
    · rw [hcell j]
      exact passCell_congr hgS j
  | true =>
    have hq : n >>> 2 = n / 4 := by
      rw [Nat.shiftRight_eq_div_pow]
    have hn : 4 * (n / 4) + n % 4 = n := Nat.div_add_mod n 4
    obtain ⟨m1, hm1, hlen1, hcell1⟩ := wideLoop_spec (n / 4) mem pSrc pDst (by omega)
      (by omega) (by omega)
    obtain ⟨m2, hm2, hlen2, hcell2⟩ := scalarLoop_spec (n % 4) m1 (pSrc + 4 * (n / 4))
      (pDst + 4 * (n / 4)) (by omega) (by omega) (by omega)
    refine ⟨m2, ?_, by omega, fun j => ?_⟩
    · have e1 : pSrc + 4 * (n / 4) + n % 4 = pSrc + n := by omega
      have e2 : pDst + 4 * (n / 4) + n % 4 = pDst + n := by omega
      rw [e1, e2] at hm2
      simp only [run, if_true, hq, hm1, Option.some_bind, hm2]
    · rw [hcell2 j]
      unfold passCell
      by_cases h2 : pDst + 4 * (n / 4) ≤ j ∧ j < pDst + 4 * (n / 4) + n % 4
      · have h3 : pDst ≤ j ∧ j < pDst + n := by omega
        have h5 : pSrc + 4 * (n / 4) + (j - (pDst + 4 * (n / 4))) = pSrc + (j - pDst) := by
          omega
        rw [if_pos h2, if_pos h3, h5, hcell1]
        unfold passCell
        rw [if_neg (by omega)]
        cases hv : mem[pSrc + (j - pDst)]? with
        | none => rfl
        | some v =>
          have := hgS (j - pDst) (by omega) v hv
          simp only [Option.map_some', Option.some.injEq]
          exact this
      · rw [if_neg h2, hcell1]
        unfold passCell
        by_cases h3 : pDst ≤ j ∧ j < pDst + 4 * (n / 4)
        · rw [if_pos h3, if_pos (by omega)]
          cases hv : mem[pSrc + (j - pDst)]? with
          | none => rfl
          | some v =>
            have := hgW (j - pDst) (by omega) v hv
            simp only [Option.map_some', Option.some.injEq]
            exact this
        · rw [if_neg h3, if_neg (by omega)]

/-! ## The kernel as a whole -/

theorem kernel_spec (b : Bool) (mem : List Int) (pSrc pDst n : Nat)
    (hS : pSrc + n ≤ mem.length) (hD : pDst + n ≤ mem.length)
    (hO : pDst ≤ pSrc ∨ pSrc + n ≤ pDst) (hQ : Q7Buf mem pSrc n) :
    ∃ m, riscv_negate_q7 b mem pSrc pDst n = some m ∧
      m.length = mem.length ∧ ∀ j, m[j]? = passCell negRule mem pSrc pDst n j := by
  obtain ⟨m, hm, hlen, hcell⟩ := run_spec b mem pSrc pDst n hS hD hO hQ
  exact ⟨m, by simp [riscv_negate_q7, hm], hlen, hcell⟩

theorem passCell_dst (g : Int → Int) (mem : List Int) (pSrc pDst n i : Nat) (hi : i < n) :
    passCell g mem pSrc pDst n (pDst + i) = (mem[pSrc + i]?).map g := by
  unfold passCell
  rw [if_pos (by omega), Nat.add_sub_cancel_left]

theorem passCell_frame (g : Int → Int) (mem : List Int) (pSrc pDst n j : Nat)
    (hj : j < pDst ∨ pDst + n ≤ j) : passCell g mem pSrc pDst n j = mem[j]? := by
  unfold passCell
  rw [if_neg (by omega)]

theorem disjoint_noClobber {pSrc pDst n : Nat} (h : Distinct pSrc pDst n) :
    pDst ≤ pSrc ∨ pSrc + n ≤ pDst := by
  unfold Distinct at h
  omega

/-- The kernel on distinct buffers: it returns, and each of the first `n`
destination cells holds the rule applied to the source cell of the same
index. -/
theorem kernel_dst (b : Bool) (mem : List Int) (pSrc pDst n : Nat)
    (hS : pSrc + n ≤ mem.length) (hD : pDst + n ≤ mem.length)
    (hO : pDst ≤ pSrc ∨ pSrc + n ≤ pDst) (hQ : Q7Buf mem pSrc n) :
    ∃ m, riscv_negate_q7 b mem pSrc pDst n = some m ∧ m.length = mem.length ∧
      (∀ i, i < n → ∃ v, mem[pSrc + i]? = some v ∧ Q7 v ∧ m[pDst + i]? = some (negRule v)) ∧
      (∀ j, j < pDst ∨ pDst + n ≤ j → m[j]? = mem[j]?) := by
  obtain ⟨m, hm, hlen, hcell⟩ := kernel_spec b mem pSrc pDst n hS hD hO hQ
  refine ⟨m, hm, hlen, fun i hi => ?_, fun j hj => ?_⟩
  · have hv : mem[pSrc + i]? = some mem[pSrc + i] := List.getElem?_eq_getElem (by omega)
    refine ⟨_, hv, Q7Buf_get hQ hi hv, ?_⟩
    rw [hcell, passCell_dst _ _ _ _ _ _ hi, hv]
    rfl
  · rw [hcell, passCell_frame _ _ _ _ _ _ hj]

theorem buf_append_left (src rest : List Int) : buf (src ++ rest) 0 src.length = src := by
  unfold buf
  simp

theorem negate_eq (b : Bool) (src : List Int) (hQ : ∀ v ∈ src, Q7 v) :
    negate b src = some (src.map negRule) := by
  have hQ' : Q7Buf (src ++ List.replicate src.length 0) 0 src.length := by
    unfold Q7Buf
    rw [buf_append_left]
    exact hQ
  obtain ⟨m, hm, hlen, hcell⟩ := kernel_spec b (src ++ List.replicate src.length 0) 0
    src.length src.length (by simp) (by simp) (Or.inr (by omega)) hQ'
  unfold negate
  rw [hm]
  simp only [Option.map_some', Option.some.injEq]
  apply List.ext_getElem?
  intro i
  rw [List.getElem?_drop, hcell, List.getElem?_map]
  unfold passCell
  by_cases hi : i < src.length
  · rw [if_pos (by omega), Nat.zero_add, Nat.add_sub_cancel_left,
      List.getElem?_append_left hi]
  · rw [if_neg (by omega), List.getElem?_eq_none (by simp; omega),
      List.getElem?_eq_none (by omega)]
    rfl

theorem buf_getElem? (mem : List Int) (p n i : Nat) :
    (buf mem p n)[i]? = if i < n then mem[p + i]? else none := by
  unfold buf
  rw [List.getElem?_take, List.getElem?_drop]

theorem Q7Buf_of_get {mem : List Int} {p n : Nat}
    (h : ∀ i, i < n → ∀ v, mem[p + i]? = some v → Q7 v) : Q7Buf mem p n := by
  intro v hv
  rw [List.mem_iff_getElem?] at hv
  obtain ⟨i, hi⟩ := hv
  rw [buf_getElem?] at hi
  by_cases hlt : i < n
  · rw [if_pos hlt] at hi
    exact h i hlt v hi
  · rw [if_neg hlt] at hi
    cases hi

theorem mem_buf_of_get {mem : List Int} {p n i : Nat} (hi : i < n) {v : Int}
    (hv : mem[p + i]? = some v) : v ∈ buf mem p n := by
  rw [List.mem_iff_getElem?]
  refine ⟨i, ?_⟩
  rw [buf_getElem?, if_pos hi]
  exact hv

theorem negRule_negRule {v : Int} (hq : Q7 v) (hv : v ≠ -128) : negRule (negRule v) = v := by
  unfold Q7 at hq
  unfold negRule
  split <;> split <;> omega

/-! ## The log of the kernel -/

theorem scalarLoopT_erase (n : Nat) : ∀ s : State,
    (scalarLoopT n s).map Prod.fst = scalarLoop n s := by
  induction n with
  | zero => intro s; rfl
  | succ n ih =>
    intro s
    unfold scalarLoopT scalarLoop
    cases load s.mem s.pSrc with
    | none => rfl
    | some inp =>
      simp only [Option.some_bind]
      cases store s.mem s.pDst (scalarExpr inp) with
      | none => rfl
      | some m =>
        simp only [Option.some_bind, Option.map_map]
        rw [← ih]
        rfl

theorem wideLoopT_erase (n : Nat) : ∀ s : State,
    (wideLoopT n s).map Prod.fst = wideLoop n s := by
  induction n with
  | zero => intro s; rfl
  | succ n ih =>
    intro s
    unfold wideLoopT wideLoop
    cases loadV s.mem s.pSrc with
    | none => rfl
    | some V =>
      simp only [Option.some_bind]
      cases store s.mem s.pDst (laneExpr (neg4 V).e0) with
      | none => rfl
      | some m1 =>
        simp only [Option.some_bind]
        cases store m1 (s.pDst + 1) (laneExpr (neg4 V).e1) with
        | none => rfl
        | some m2 =>
          simp only [Option.some_bind]
          cases store m2 (s.pDst + 2) (laneExpr (neg4 V).e2) with
          | none => rfl
          | some m3 =>
            simp only [Option.some_bind]
            cases store m3 (s.pDst + 3) (laneExpr (neg4 V).e3) with
            | none => rfl
            | some m4 =>
              simp only [Option.some_bind, Option.map_map]
              rw [← ih]
              rfl

theorem runT_erase (b : Bool) (s : State) (n : Nat) :
    (runT b s n).map Prod.fst = run b s n := by
  cases b with
  | false => exact scalarLoopT_erase n s
  | true =>
    simp only [runT, run, if_true]
    rw [← wideLoopT_erase]
    cases wideLoopT (n >>> 2) s with
    | none => rfl
    | some r1 =>
      simp only [Option.some_bind, Option.map_some', Option.map_map]
      rw [← scalarLoopT_erase]
      rfl

theorem range'_four (p k : Nat) :
    List.range' p (4 * (k + 1)) = p :: (p + 1) :: (p + 2) :: (p + 3) :: List.range' (p + 4) (4 * k) := by
  have h : 4 * (k + 1) = 4 * k + 1 + 1 + 1 + 1 := by omega
  rw [h, List.range'_succ, List.range'_succ, List.range'_succ, List.range'_succ]

theorem scalarLoopT_spec (n : Nat) : ∀ (mem : List Int) (pSrc pDst : Nat),
    pSrc + n ≤ mem.length → pDst + n ≤ mem.length →
    ∃ m tr, scalarLoopT n ⟨mem, pSrc, pDst⟩ = some (⟨m, pSrc + n, pDst + n⟩, tr) ∧
      m.length = mem.length ∧
      reads false tr = List.range' pSrc n ∧ reads true tr = [] ∧
      writes false tr = List.range' pDst n ∧ writes true tr = [] ∧
      iters false tr = n ∧ iters true tr = 0 := by
  induction n with
  | zero =>
    intro mem pSrc pDst _ _
    exact ⟨mem, [], rfl, rfl, rfl, rfl, rfl, rfl, rfl, rfl⟩
  | succ n ih =>
    intro mem pSrc pDst hS hD
    have hs : pSrc < mem.length := by omega
    have hd : pDst < mem.length := by omega
    obtain ⟨m, tr, hm, hlen, hr, hr', hw, hw', hi, hi'⟩ :=
      ih (mem.set pDst (toQ7 (scalarExpr mem[pSrc]))) (pSrc + 1) (pDst + 1)
        (by simp; omega) (by simp; omega)
    have e1 : pSrc + 1 + n = pSrc + (n + 1) := by omega
    have e2 : pDst + 1 + n = pDst + (n + 1) := by omega
    rw [e1, e2] at hm
    refine ⟨m, Ev.iter false :: Ev.rd false pSrc :: Ev.wr false pDst :: tr, ?_,
      by simpa using hlen, ?_, ?_, ?_, ?_, ?_, ?_⟩
    · simp only [scalarLoopT, load, store, List.getElem?_eq_getElem hs, Option.some_bind, hd,
        if_true, hm, Option.map_some']
    · rw [List.range'_succ, ← hr]
      simp [reads]
    · rw [← hr']
      simp [reads]
    · rw [List.range'_succ, ← hw]
      simp [writes]
    · rw [← hw']
      simp [writes]
    · have : iters false tr = n := hi
      simp [iters] at this ⊢
      exact this
    · have : iters true tr = 0 := hi'
      simp [iters] at this ⊢
      exact this

theorem wideLoopT_spec (n : Nat) : ∀ (mem : List Int) (pSrc pDst : Nat),
    pSrc + 4 * n ≤ mem.length → pDst + 4 * n ≤ mem.length →
    ∃ m tr, wideLoopT n ⟨mem, pSrc, pDst⟩ = some (⟨m, pSrc + 4 * n, pDst + 4 * n⟩, tr) ∧
      m.length = mem.length ∧
      reads true tr = List.range' pSrc (4 * n) ∧ reads false tr = [] ∧
      writes true tr = List.range' pDst (4 * n) ∧ writes false tr = [] ∧
      iters true tr = n ∧ iters false tr = 0 := by
  induction n with
  | zero =>
    intro mem pSrc pDst _ _
    exact ⟨mem, [], rfl, rfl, rfl, rfl, rfl, rfl, rfl, rfl⟩
  | succ n ih =>
    intro mem pSrc pDst hS hD
    obtain ⟨a, hs0⟩ : ∃ a, mem[pSrc]? = some a :=
      ⟨_, List.getElem?_eq_getElem (by omega)⟩
    obtain ⟨b, hs1⟩ : ∃ b, mem[pSrc + 1]? = some b :=
      ⟨_, List.getElem?_eq_getElem (by omega)⟩
    obtain ⟨c, hs2⟩ : ∃ c, mem[pSrc + 2]? = some c :=
      ⟨_, List.getElem?_eq_getElem (by omega)⟩
    obtain ⟨d, hs3⟩ : ∃ d, mem[pSrc + 3]? = some d :=
      ⟨_, List.getElem?_eq_getElem (by omega)⟩
    have hd0 : pDst < mem.length := by omega
    have hd1 : pDst + 1 < mem.length := by omega
    have hd2 : pDst + 2 < mem.length := by omega
    have hd3 : pDst + 3 < mem.length := by omega
    obtain ⟨m, tr, hm, hlen, hr, hr', hw, hw', hi, hi'⟩ := ih
      ((((mem.set pDst (toQ7 (laneExpr (neg8 a)))).set (pDst + 1)
        (toQ7 (laneExpr (neg8 b)))).set (pDst + 2)
        (toQ7 (laneExpr (neg8 c)))).set (pDst + 3)
        (toQ7 (laneExpr (neg8 d))))
      (pSrc + 4) (pDst + 4) (by simp; omega) (by simp; omega)
    have e1 : pSrc + 4 + 4 * n = pSrc + 4 * (n + 1) := by omega
    have e2 : pDst + 4 + 4 * n = pDst + 4 * (n + 1) := by omega
    rw [e1, e2] at hm
    refine ⟨m, Ev.iter true :: Ev.rd true pSrc :: Ev.rd true (pSrc + 1) ::
        Ev.rd true (pSrc + 2) :: Ev.rd true (pSrc + 3) ::
        Ev.wr true pDst :: Ev.wr true (pDst + 1) :: Ev.wr true (pDst + 2) ::
        Ev.wr true (pDst + 3) :: tr, ?_, by simpa using hlen, ?_, ?_, ?_, ?_, ?_, ?_⟩
    · simp only [wideLoopT, loadV, load, store, neg4, hs0, hs1, hs2, hs3, Option.some_bind,
        List.length_set, hd0, hd1, hd2, hd3, if_true, hm, Option.map_some']
    · rw [range'_four, ← hr]
      simp [reads]
    · rw [← hr']
      simp [reads]
    · rw [range'_four, ← hw]
      simp [writes]
    · rw [← hw']
      simp [writes]
    · have : iters true tr = n := hi
      simp [iters] at this ⊢
      exact this
    · have : iters false tr = 0 := hi'
      simp [iters] at this ⊢
      exact this

theorem reads_append (w : Bool) (t1 t2 : List Ev) :
    reads w (t1 ++ t2) = reads w t1 ++ reads w t2 := by
  unfold reads
  rw [List.filterMap_append]

theorem writes_append (w : Bool) (t1 t2 : List Ev) :
    writes w (t1 ++ t2) = writes w t1 ++ writes w t2 := by
  unfold writes
  rw [List.filterMap_append]

theorem iters_append (w : Bool) (t1 t2 : List Ev) :
    iters w (t1 ++ t2) = iters w t1 + iters w t2 := by
  unfold iters
  rw [List.count_append]

theorem mem_reads {w : Bool} {p : Nat} {tr : List Ev} (h : Ev.rd w p ∈ tr) :
    p ∈ reads w tr := by
  unfold reads
  rw [List.mem_filterMap]
  exact ⟨Ev.rd w p, h, by simp⟩

theorem mem_writes {w : Bool} {p : Nat} {tr : List Ev} (h : Ev.wr w p ∈ tr) :
    p ∈ writes w tr := by
  unfold writes
  rw [List.mem_filterMap]
  exact ⟨Ev.wr w p, h, by simp⟩

/-- The log of the whole function on the path compiled with `USE_DSP_RISCV`:
the unrolled loop runs `n / 4` times over the first `4 * (n / 4)` cells, then
the scalar loop runs `n % 4` times over the rest. -/
theorem runT_wide_spec (mem : List Int) (pSrc pDst n : Nat)
    (hS : pSrc + n ≤ mem.length) (hD : pDst + n ≤ mem.length) :
    ∃ m1 tr1 m2 tr2,
      wideLoopT (n >>> 2) ⟨mem, pSrc, pDst⟩ =
        some (⟨m1, pSrc + 4 * (n / 4), pDst + 4 * (n / 4)⟩, tr1) ∧
      scalarLoopT (n % 4) ⟨m1, pSrc + 4 * (n / 4), pDst + 4 * (n / 4)⟩ =
        some (⟨m2, pSrc + n, pDst + n⟩, tr2) ∧
      runT true ⟨mem, pSrc, pDst⟩ n = some (⟨m2, pSrc + n, pDst + n⟩, tr1 ++ tr2) ∧
      m2.length = mem.length ∧
      reads true tr1 = List.range' pSrc (4 * (n / 4)) ∧ reads false tr1 = [] ∧
      writes true tr1 = List.range' pDst (4 * (n / 4)) ∧ writes false tr1 = [] ∧
      iters true tr1 = n / 4 ∧ iters false tr1 = 0 ∧
      reads false tr2 = List.range' (pSrc + 4 * (n / 4)) (n % 4) ∧ reads true tr2 = [] ∧
      writes false tr2 = List.range' (pDst + 4 * (n / 4)) (n % 4) ∧ writes true tr2 = [] ∧
      iters false tr2 = n % 4 ∧ iters true tr2 = 0 := by
  have hq : n >>> 2 = n / 4 := by
    rw [Nat.shiftRight_eq_div_pow]
  have hn : 4 * (n / 4) + n % 4 = n := Nat.div_add_mod n 4
  obtain ⟨m1, tr1, hm1, hlen1, a1, a2, a3, a4, a5, a6⟩ :=
    wideLoopT_spec (n / 4) mem pSrc pDst (by omega) (by omega)
  obtain ⟨m2, tr2, hm2, hlen2, b1, b2, b3, b4, b5, b6⟩ :=
    scalarLoopT_spec (n % 4) m1 (pSrc + 4 * (n / 4)) (pDst + 4 * (n / 4)) (by omega) (by omega)
  have e1 : pSrc + 4 * (n / 4) + n % 4 = pSrc + n := by omega
  have e2 : pDst + 4 * (n / 4) + n % 4 = pDst + n := by omega
  rw [e1, e2] at hm2
  refine ⟨m1, tr1, m2, tr2, by rw [hq]; exact hm1, hm2, ?_, by omega,
    a1, a2, a3, a4, a5, a6, b1, b2, b3, b4, b5, b6⟩
  simp only [runT, if_true, hq, hm1, Option.some_bind, hm2, Option.map_some']

theorem negRule_sym_range {v : Int} (hq : Q7 v) :
    negRule v ≠ -128 ∧ -127 ≤ negRule v ∧ negRule v ≤ 127 := by
  unfold Q7 at hq
  unfold negRule
  split <;> omega

theorem negRule_exact {w : Int} (hw : w ≠ -128) : negRule w = -w := by
  unfold negRule
  rw [if_neg hw]

theorem negRule_thrice {v : Int} (hq : Q7 v) : negRule (negRule (negRule v)) = negRule v := by
  by_cases h : v = -128
  · subst h
    decide
  · rw [negRule_negRule hq h]

theorem distinct_symm {p q n : Nat} (h : Distinct p q n) : Distinct q p n := by
  unfold Distinct at *
  omega

/-- The output buffer of a call holds Q7 values. -/
theorem Q7Buf_out {mem m : List Int} {pSrc pDst n : Nat}
    (h : ∀ i, i < n → ∃ v, mem[pSrc + i]? = some v ∧ Q7 v ∧ m[pDst + i]? = some (negRule v)) :
    Q7Buf m pDst n := by
  apply Q7Buf_of_get
  intro i hi w hw
  obtain ⟨v, _, hq, hv⟩ := h i hi
  rw [hv] at hw
  cases hw
  exact negRule_range hq

/-! ## The claims -/

/-- C1: on the scalar path, for every memory whose source buffer holds Q7
values and every `blockSize` `n` within both (distinct) buffers, the call
returns and, for every index `i < n`, the destination cell `i` holds 127 if the
source cell `i` holds -128 and the negation of the source cell otherwise. -/
theorem C1_scalar_rule (mem : List Int) (pSrc pDst n : Nat)
    (hS : pSrc + n ≤ mem.length) (hD : pDst + n ≤ mem.length)
    (hDis : Distinct pSrc pDst n) (hQ : Q7Buf mem pSrc n) :
    ∃ m, riscv_negate_q7 false mem pSrc pDst n = some m ∧
      ∀ i, i < n → ∃ v, mem[pSrc + i]? = some v ∧
        m[pDst + i]? = some (if v = -128 then 127 else -v) := by
  obtain ⟨m, hm, _, hdst, _⟩ :=
    kernel_dst false mem pSrc pDst n hS hD (disjoint_noClobber hDis) hQ
  refine ⟨m, hm, fun i hi => ?_⟩
  obtain ⟨v, hv, _, hw⟩ := hdst i hi
  exact ⟨v, hv, hw⟩

theorem C1_scalar_rule_witness :
    ∃ m, riscv_negate_q7 false [5, -128, -1, 0, 0, 0] 0 3 3 = some m ∧
      ∀ i, i < 3 → ∃ v, [5, -128, -1, 0, 0, (0 : Int)][0 + i]? = some v ∧
        m[3 + i]? = some (if v = -128 then 127 else -v) :=
  C1_scalar_rule [5, -128, -1, 0, 0, 0] 0 3 3 (by decide) (by decide) (by decide) (by decide)

/-- C2: for every memory whose source buffer holds Q7 values and every
`blockSize` `n` within both (distinct) buffers, the path compiled with
`USE_DSP_RISCV` returns and leaves exactly the memory the scalar-only path
leaves; and on every buffer of Q7 values the two paths of `negate` return the
same buffer. -/
theorem C2_wide_eq_scalar (mem : List Int) (pSrc pDst n : Nat)
    (hS : pSrc + n ≤ mem.length) (hD : pDst + n ≤ mem.length)
    (hDis : Distinct pSrc pDst n) (hQ : Q7Buf mem pSrc n) :
    (∃ m, riscv_negate_q7 true mem pSrc pDst n = some m ∧
      riscv_negate_q7 false mem pSrc pDst n = some m) ∧
    (∀ src : List Int, (∀ v ∈ src, Q7 v) →
      ∃ out, negate true src = some out ∧ negate false src = some out) := by
  constructor
  · obtain ⟨m, hm, _, hcell⟩ :=
      kernel_spec true mem pSrc pDst n hS hD (disjoint_noClobber hDis) hQ
    obtain ⟨m', hm', _, hcell'⟩ :=
      kernel_spec false mem pSrc pDst n hS hD (disjoint_noClobber hDis) hQ
    have : m' = m := List.ext_getElem? fun j => by rw [hcell, hcell']
    exact ⟨m, hm, this ▸ hm'⟩
  · intro src hsrc
    exact ⟨_, negate_eq true src hsrc, negate_eq false src hsrc⟩

theorem C2_wide_eq_scalar_witness :
    ((∃ m, riscv_negate_q7 true
          [5, -128, -1, 0, 127, -5, -128, 64, 0, 0, 0, 0, 0, 0, 0, 0] 0 8 8 = some m ∧
        riscv_negate_q7 false
          [5, -128, -1, 0, 127, -5, -128, 64, 0, 0, 0, 0, 0, 0, 0, 0] 0 8 8 = some m) ∧
      (∀ src : List Int, (∀ v ∈ src, Q7 v) →
        ∃ out, negate true src = some out ∧ negate false src = some out)) ∧
    negate true [5, -128, -1, 0, 127, -5, -128, 64] =
      some [-5, 127, 1, 0, -127, 5, 127, -64] ∧
    ∀ k ∈ List.range 9,
      negate true (List.take k [5, -128, -1, 0, 127, -5, -128, 64]) =
        negate false (List.take k [5, -128, -1, 0, 127, -5, -128, 64]) :=
  ⟨C2_wide_eq_scalar [5, -128, -1, 0, 127, -5, -128, 64, 0, 0, 0, 0, 0, 0, 0, 0] 0 8 8
    (by decide) (by decide) (by decide) (by decide), by decide, by decide⟩

/-- C3: for every memory whose source buffer holds Q7 values, on either path
and for every index `i < n`, the destination cell `i` holds `saturate(-v)` for
the value `v` of the source cell `i`, the negation taken in the integers and
`saturate(x)` being 127 if `x > 127` and `x` otherwise; and among the Q7 values
the clamp differs from the plain negation at -128 and nowhere else. -/
theorem C3_saturate_neg (b : Bool) (mem : List Int) (pSrc pDst n : Nat)
    (hS : pSrc + n ≤ mem.length) (hD : pDst + n ≤ mem.length)
    (hDis : Distinct pSrc pDst n) (hQ : Q7Buf mem pSrc n) :
    (∃ m, riscv_negate_q7 b mem pSrc pDst n = some m ∧
      ∀ i, i < n → ∃ v, mem[pSrc + i]? = some v ∧ m[pDst + i]? = some (saturate (-v))) ∧
    (∀ v, Q7 v → (saturate (-v) ≠ -v ↔ v = -128)) := by
  constructor
  · obtain ⟨m, hm, _, hdst, _⟩ :=
      kernel_dst b mem pSrc pDst n hS hD (disjoint_noClobber hDis) hQ
    refine ⟨m, hm, fun i hi => ?_⟩
    obtain ⟨v, hv, hq, hw⟩ := hdst i hi
    refine ⟨v, hv, ?_⟩
    rw [hw]
    unfold Q7 at hq
    unfold negRule saturate
    congr 1
    split <;> split <;> omega
  · intro v hq
    unfold Q7 at hq
    unfold saturate
    split <;> omega

theorem C3_saturate_neg_witness :
    (∃ m, riscv_negate_q7 true [-128, 127, 3, -4, -128, 9, 9, 9, 9, 9] 0 5 5 = some m ∧
      ∀ i, i < 5 → ∃ v, [-128, 127, 3, -4, -128, 9, 9, 9, 9, (9 : Int)][0 + i]? = some v ∧
        m[5 + i]? = some (saturate (-v))) ∧
    (∀ v, Q7 v → (saturate (-v) ≠ -v ↔ v = -128)) :=
  C3_saturate_neg true [-128, 127, 3, -4, -128, 9, 9, 9, 9, 9] 0 5 5
    (by decide) (by decide) (by decide) (by decide)

/-- C4: the Q7 value 0x80 (-128) is saturated to 0x7F (127): on either path,
for every memory whose source buffer holds Q7 values and every index `i < n`
whose source cell holds -128, the destination cell `i` holds 127, whichever
loop handles that index; and `negate([-128]) = [127]`. -/
theorem C4_min_saturates (b : Bool) (mem : List Int) (pSrc pDst n : Nat)
    (hS : pSrc + n ≤ mem.length) (hD : pDst + n ≤ mem.length)
    (hDis : Distinct pSrc pDst n) (hQ : Q7Buf mem pSrc n) :
    (∃ m, riscv_negate_q7 b mem pSrc pDst n = some m ∧
      ∀ i, i < n → mem[pSrc + i]? = some (-128) → m[pDst + i]? = some 127) ∧
    negate b [-128] = some [127] := by
  constructor
  · obtain ⟨m, hm, _, hdst, _⟩ :=
      kernel_dst b mem pSrc pDst n hS hD (disjoint_noClobber hDis) hQ
    refine ⟨m, hm, fun i hi h128 => ?_⟩
    obtain ⟨v, hv, _, hw⟩ := hdst i hi
    rw [h128] at hv
    cases hv
    rw [hw]
    rfl
  · cases b <;> decide

theorem C4_min_saturates_witness :
    (∃ m, riscv_negate_q7 true [1, 2, 3, -128, 4, -128, 0, 0, 0, 0, 0, 0] 0 6 6 = some m ∧
      ∀ i, i < 6 → [1, 2, 3, -128, 4, -128, 0, 0, 0, 0, 0, (0 : Int)][0 + i]? = some (-128) →
        m[6 + i]? = some 127) ∧
    negate true [-128] = some [127] :=
  C4_min_saturates true [1, 2, 3, -128, 4, -128, 0, 0, 0, 0, 0, 0] 0 6 6
    (by decide) (by decide) (by decide) (by decide)

/-- C5: negation is an involution away from the edge case.  On either path,
for every memory whose source buffer holds Q7 values none of which is -128 in
its first `n` cells, a call from the source to a destination followed by a call
from that destination to a third buffer returns the original first `n` values;
and for every Q7 value `v` other than -128, `negate(negate([v])) = [v]`. -/
theorem C5_involution (b : Bool) (mem : List Int) (pSrc pDst pOut n : Nat)
    (hS : pSrc + n ≤ mem.length) (hD : pDst + n ≤ mem.length)
    (hOut : pOut + n ≤ mem.length)
    (hDis : Distinct pSrc pDst n) (hDis2 : Distinct pDst pOut n)
    (hQ : Q7Buf mem pSrc n) (hNo : (-128 : Int) ∉ buf mem pSrc n) :
    (∃ m1 m2, riscv_negate_q7 b mem pSrc pDst n = some m1 ∧
      riscv_negate_q7 b m1 pDst pOut n = some m2 ∧
      ∀ i, i < n → ∃ v, mem[pSrc + i]? = some v ∧ m2[pOut + i]? = some v) ∧
    (∀ v, Q7 v → v ≠ -128 → (negate b [v]).bind (negate b) = some [v]) := by
  constructor
  · obtain ⟨m1, hm1, hlen1, hdst1, _⟩ :=
      kernel_dst b mem pSrc pDst n hS hD (disjoint_noClobber hDis) hQ
    have hQ1 : Q7Buf m1 pDst n := by
      apply Q7Buf_of_get
      intro i hi w hw
      obtain ⟨v, _, hq, hv⟩ := hdst1 i hi
      rw [hv] at hw
      cases hw
      exact negRule_range hq
    obtain ⟨m2, hm2, _, hdst2, _⟩ :=
      kernel_dst b m1 pDst pOut n (by omega) (by omega) (disjoint_noClobber hDis2) hQ1
    refine ⟨m1, m2, hm1, hm2, fun i hi => ?_⟩
    obtain ⟨v, hv, hq, hw⟩ := hdst1 i hi
    obtain ⟨w, hw', _, hz⟩ := hdst2 i hi
    rw [hw] at hw'
    cases hw'
    refine ⟨v, hv, ?_⟩
    rw [hz, negRule_negRule hq]
    intro h128
    exact hNo (h128 ▸ mem_buf_of_get hi hv)
  · intro v hq hv
    have h1 : negate b [v] = some [negRule v] := by
      rw [negate_eq b [v] (by simpa using hq)]
      rfl
    have h2 : negate b [negRule v] = some [negRule (negRule v)] := by
      rw [negate_eq b [negRule v] (by simpa using negRule_range hq)]
      rfl
    rw [h1, Option.some_bind, h2, negRule_negRule hq hv]

theorem C5_involution_witness :
    (∃ m1 m2, riscv_negate_q7 true [7, -127, 0, 127, -1, 0, 0, 0, 0, 0] 0 5 5 = some m1 ∧
      riscv_negate_q7 true m1 5 0 5 = some m2 ∧
      ∀ i, i < 5 → ∃ v, [7, -127, 0, 127, -1, 0, 0, 0, 0, (0 : Int)][0 + i]? = some v ∧
        m2[0 + i]? = some v) ∧
    (∀ v, Q7 v → v ≠ -128 → (negate true [v]).bind (negate true) = some [v]) :=
  C5_involution true [7, -127, 0, 127, -1, 0, 0, 0, 0, 0] 0 5 0 5
    (by decide) (by decide) (by decide) (by decide) (by decide) (by decide) (by decide)

/-- C6: elementwise independence.  On either path, for every memory whose
source buffer holds Q7 values and every index `i < n`, the destination cell `i`
after the call on the whole buffer holds the single output of the kernel (on
either path) applied to the one-element buffer made of the source cell `i`; and
`negate([x, y]) = [negate([x])[0], negate([y])[0]]` for all Q7 values. -/
theorem C6_elementwise (b b' : Bool) (mem : List Int) (pSrc pDst n : Nat)
    (hS : pSrc + n ≤ mem.length) (hD : pDst + n ≤ mem.length)
    (hDis : Distinct pSrc pDst n) (hQ : Q7Buf mem pSrc n) :
    (∃ m, riscv_negate_q7 b mem pSrc pDst n = some m ∧
      ∀ i, i < n → ∃ v w, mem[pSrc + i]? = some v ∧ negate b' [v] = some [w] ∧
        m[pDst + i]? = some w) ∧
    (∀ x y, Q7 x → Q7 y → ∃ x' y', negate b' [x] = some [x'] ∧ negate b' [y] = some [y'] ∧
      negate b [x, y] = some [x', y']) := by
  constructor
  · obtain ⟨m, hm, _, hdst, _⟩ :=
      kernel_dst b mem pSrc pDst n hS hD (disjoint_noClobber hDis) hQ
    refine ⟨m, hm, fun i hi => ?_⟩
    obtain ⟨v, hv, hq, hw⟩ := hdst i hi
    refine ⟨v, negRule v, hv, ?_, hw⟩
    rw [negate_eq b' [v] (by simpa using hq)]
    rfl
  · intro x y hx hy
    refine ⟨negRule x, negRule y, ?_, ?_, ?_⟩
    · rw [negate_eq b' [x] (by simpa using hx)]
      rfl
    · rw [negate_eq b' [y] (by simpa using hy)]
      rfl
    · rw [negate_eq b [x, y] (by simpa using ⟨hx, hy⟩)]
      rfl

theorem C6_elementwise_witness :
    (∃ m, riscv_negate_q7 true [3, -128, 0, -7, 100, 1, 0, 0, 0, 0, 0, 0] 0 6 6 = some m ∧
      ∀ i, i < 6 → ∃ v w, [3, -128, 0, -7, 100, 1, 0, 0, 0, 0, 0, (0 : Int)][0 + i]? = some v ∧
        negate false [v] = some [w] ∧ m[6 + i]? = some w) ∧
    (∀ x y, Q7 x → Q7 y → ∃ x' y', negate false [x] = some [x'] ∧
      negate false [y] = some [y'] ∧ negate true [x, y] = some [x', y']) :=
  C6_elementwise true false [3, -128, 0, -7, 100, 1, 0, 0, 0, 0, 0, 0] 0 6 6
    (by decide) (by decide) (by decide) (by decide)

/-- C7: range preservation.  On either path, for every memory whose source
buffer holds Q7 values and every `blockSize` `n` within both buffers, every
destination cell written lies in [-128, 127]; and with the values taken as
integers, before the conversion done by the store, each expression the two loops
write (and each lane `neg4` returns) lies in that range for a Q7 input, so the
conversion changes nothing. -/
theorem C7_range (b : Bool) (mem : List Int) (pSrc pDst n : Nat)
    (hS : pSrc + n ≤ mem.length) (hD : pDst + n ≤ mem.length)
    (hDis : Distinct pSrc pDst n) (hQ : Q7Buf mem pSrc n) :
    (∃ m, riscv_negate_q7 b mem pSrc pDst n = some m ∧
      ∀ i, i < n → ∃ w, m[pDst + i]? = some w ∧ -128 ≤ w ∧ w ≤ 127) ∧
    (∀ v, Q7 v → Q7 (scalarExpr v) ∧ Q7 (neg8 v) ∧ Q7 (laneExpr (neg8 v)) ∧
      toQ7 (scalarExpr v) = scalarExpr v ∧ toQ7 (laneExpr (neg8 v)) = laneExpr (neg8 v)) := by
  constructor
  · obtain ⟨m, hm, _, hdst, _⟩ :=
      kernel_dst b mem pSrc pDst n hS hD (disjoint_noClobber hDis) hQ
    refine ⟨m, hm, fun i hi => ?_⟩
    obtain ⟨v, _, hq, hw⟩ := hdst i hi
    exact ⟨negRule v, hw, negRule_range hq⟩
  · intro v hq
    have h1 : Q7 (scalarExpr v) := by
      rw [scalarExpr_eq_negRule]
      exact negRule_range hq
    have h2 : Q7 (laneExpr (neg8 v)) := by
      rw [laneExpr_neg8 hq]
      exact negRule_range hq
    refine ⟨h1, ?_, h2, toQ7_of_Q7 h1, toQ7_of_Q7 h2⟩
    unfold Q7 neg8
    omega

theorem C7_range_witness :
    (∃ m, riscv_negate_q7 true [-128, 127, -127, 0, 1, -1, -128, 5, 5, 5, 5, 5, 5, 5] 0 7 7 =
        some m ∧
      ∀ i, i < 7 → ∃ w, m[7 + i]? = some w ∧ -128 ≤ w ∧ w ≤ 127) ∧
    (∀ v, Q7 v → Q7 (scalarExpr v) ∧ Q7 (neg8 v) ∧ Q7 (laneExpr (neg8 v)) ∧
      toQ7 (scalarExpr v) = scalarExpr v ∧ toQ7 (laneExpr (neg8 v)) = laneExpr (neg8 v)) :=
  C7_range true [-128, 127, -127, 0, 1, -1, -128, 5, 5, 5, 5, 5, 5, 5] 0 7 7
    (by decide) (by decide) (by decide) (by decide)

/-- C8: the only effect of the kernel is on the first `n` cells of the
destination.  On either path, for a source buffer of `lenS` cells and a
destination buffer of `lenD` cells that do not overlap, and `n` within both,
the call returns; the first `n` destination cells hold the outputs (whatever
they held before); the destination cells from index `n` on keep their values;
the length of the destination and of the memory is unchanged; the source
buffer is unchanged; and so is every other cell of the memory. -/
theorem C8_frame (b : Bool) (mem : List Int) (pSrc pDst lenS lenD n : Nat)
    (hnS : n ≤ lenS) (hnD : n ≤ lenD)
    (hS : pSrc + lenS ≤ mem.length) (hD : pDst + lenD ≤ mem.length)
    (hDis : pSrc + lenS ≤ pDst ∨ pDst + lenD ≤ pSrc) (hQ : Q7Buf mem pSrc n) :
    ∃ m, riscv_negate_q7 b mem pSrc pDst n = some m ∧
      (buf m pDst lenD).take n = ((buf mem pSrc lenS).take n).map negRule ∧
      (buf m pDst lenD).drop n = (buf mem pDst lenD).drop n ∧
      (buf m pDst lenD).length = (buf mem pDst lenD).length ∧
      m.length = mem.length ∧
      buf m pSrc lenS = buf mem pSrc lenS ∧
      ∀ j, j < pDst ∨ pDst + n ≤ j → m[j]? = mem[j]? := by
  obtain ⟨m, hm, hlen, hcell⟩ :=
    kernel_spec b mem pSrc pDst n (by omega) (by omega) (by omega) hQ
  have hfr : ∀ j, j < pDst ∨ pDst + n ≤ j → m[j]? = mem[j]? := fun j hj => by
    rw [hcell, passCell_frame _ _ _ _ _ _ hj]
  refine ⟨m, hm, ?_, ?_, ?_, hlen, ?_, hfr⟩
  · apply List.ext_getElem?
    intro i
    rw [List.getElem?_map, List.getElem?_take, List.getElem?_take, buf_getElem?,
      buf_getElem?]
    by_cases hi : i < n
    · rw [if_pos hi, if_pos hi, if_pos (by omega), if_pos (by omega), hcell,
        passCell_dst _ _ _ _ _ _ hi]
    · rw [if_neg hi, if_neg hi]
      rfl
  · apply List.ext_getElem?
    intro i
    rw [List.getElem?_drop, List.getElem?_drop, buf_getElem?, buf_getElem?,
      hfr (pDst + (n + i)) (by omega)]
  · unfold buf
    simp only [List.length_take, List.length_drop, hlen]
  · apply List.ext_getElem?
    intro i
    rw [buf_getElem?, buf_getElem?]
    by_cases hi : i < lenS
    · rw [if_pos hi, if_pos hi, hfr (pSrc + i) (by omega)]
    · rw [if_neg hi, if_neg hi]

theorem C8_frame_witness :
    ∃ m, riscv_negate_q7 true [9, 1, -128, 3, 4, 5, 6, 9, 9, 70, 71, 72, 73, 74, 75, 76, 9]
        1 9 5 = some m ∧
      (buf m 9 7).take 5 =
        ((buf [9, 1, -128, 3, 4, 5, 6, 9, 9, 70, 71, 72, 73, 74, 75, 76, 9] 1 6).take 5).map
          negRule ∧
      (buf m 9 7).drop 5 =
        (buf [9, 1, -128, 3, 4, 5, 6, 9, 9, 70, 71, 72, 73, 74, 75, 76, 9] 9 7).drop 5 ∧
      (buf m 9 7).length =
        (buf [9, 1, -128, 3, 4, 5, 6, 9, 9, 70, 71, 72, 73, 74, 75, 76, 9] 9 7).length ∧
      m.length = [9, 1, -128, 3, 4, 5, 6, 9, 9, 70, 71, 72, 73, 74, 75, 76, (9 : Int)].length ∧
      buf m 1 6 = buf [9, 1, -128, 3, 4, 5, 6, 9, 9, 70, 71, 72, 73, 74, 75, 76, 9] 1 6 ∧
      ∀ j, j < 9 ∨ 9 + 5 ≤ j →
        m[j]? = [9, 1, -128, 3, 4, 5, 6, 9, 9, 70, 71, 72, 73, 74, 75, 76, (9 : Int)][j]? :=
  C8_frame true [9, 1, -128, 3, 4, 5, 6, 9, 9, 70, 71, 72, 73, 74, 75, 76, 9] 1 9 6 7 5
    (by decide) (by decide) (by decide) (by decide) (by decide) (by decide)

/-- C9: empty input is a no-op.  For `blockSize = 0`, on either path and for
any memory and any two pointers, no loop body runs: both loop counts are 0, the
final state is the initial state, the memory is returned exactly as it was; and
`negate([]) = []`. -/
theorem C9_empty (b : Bool) (mem : List Int) (pSrc pDst : Nat) :
    (0 >>> 2 = 0 ∧ 0 % 4 = 0) ∧
    wideLoop 0 ⟨mem, pSrc, pDst⟩ = some ⟨mem, pSrc, pDst⟩ ∧
    scalarLoop 0 ⟨mem, pSrc, pDst⟩ = some ⟨mem, pSrc, pDst⟩ ∧
    run b ⟨mem, pSrc, pDst⟩ 0 = some ⟨mem, pSrc, pDst⟩ ∧
    riscv_negate_q7 b mem pSrc pDst 0 = some mem ∧
    negate b [] = some [] := by
  refine ⟨⟨rfl, rfl⟩, rfl, rfl, ?_, ?_, ?_⟩ <;> cases b <;> rfl

/-- C10: in-place operation is safe.  With `pSrc == pDst` in the one memory, on
either path and for every buffer of Q7 values and every `n` within it, the call
returns; each of the first `n` cells holds the output for the value it held
before; the rest of the memory is unchanged; and the first `n` cells are exactly
what a call with any distinct destination buffer writes to that destination. -/
theorem C10_in_place (b : Bool) (mem : List Int) (p n : Nat)
    (hP : p + n ≤ mem.length) (hQ : Q7Buf mem p n) :
    ∃ m, riscv_negate_q7 b mem p p n = some m ∧ m.length = mem.length ∧
      (∀ i, i < n → ∃ v, mem[p + i]? = some v ∧ m[p + i]? = some (negRule v)) ∧
      (∀ j, j < p ∨ p + n ≤ j → m[j]? = mem[j]?) ∧
      (∀ pDst, Distinct p pDst n → pDst + n ≤ mem.length →
        ∃ m', riscv_negate_q7 b mem p pDst n = some m' ∧ buf m p n = buf m' pDst n) := by
  obtain ⟨m, hm, hlen, hdst, hfr⟩ :=
    kernel_dst b mem p p n hP hP (Or.inl (Nat.le_refl p)) hQ
  refine ⟨m, hm, hlen, fun i hi => ?_, hfr, fun pDst hDis hD => ?_⟩
  · obtain ⟨v, hv, _, hw⟩ := hdst i hi
    exact ⟨v, hv, hw⟩
  · obtain ⟨m', hm', _, hdst', _⟩ :=
      kernel_dst b mem p pDst n hP hD (disjoint_noClobber hDis) hQ
    refine ⟨m', hm', ?_⟩
    apply List.ext_getElem?
    intro i
    rw [buf_getElem?, buf_getElem?]
    by_cases hi : i < n
    · obtain ⟨v, hv, _, hw⟩ := hdst i hi
      obtain ⟨v', hv', _, hw'⟩ := hdst' i hi
      rw [hv] at hv'
      cases hv'
      rw [if_pos hi, if_pos hi, hw, hw']
    · rw [if_neg hi, if_neg hi]

theorem C10_in_place_witness :
    ∃ m, riscv_negate_q7 true [1, 5, -128, -1, 0, 127, -5, 2, 2, 2, 2, 2, 2, 2] 1 1 6 =
        some m ∧
      m.length = [1, 5, -128, -1, 0, 127, -5, 2, 2, 2, 2, 2, 2, (2 : Int)].length ∧
      (∀ i, i < 6 → ∃ v, [1, 5, -128, -1, 0, 127, -5, 2, 2, 2, 2, 2, 2, (2 : Int)][1 + i]? =
        some v ∧ m[1 + i]? = some (negRule v)) ∧
      (∀ j, j < 1 ∨ 1 + 6 ≤ j →
        m[j]? = [1, 5, -128, -1, 0, 127, -5, 2, 2, 2, 2, 2, 2, (2 : Int)][j]?) ∧
      (∀ pDst, Distinct 1 pDst 6 →
        pDst + 6 ≤ [1, 5, -128, -1, 0, 127, -5, 2, 2, 2, 2, 2, 2, (2 : Int)].length →
        ∃ m', riscv_negate_q7 true [1, 5, -128, -1, 0, 127, -5, 2, 2, 2, 2, 2, 2, 2] 1 pDst 6 =
          some m' ∧ buf m 1 6 = buf m' pDst 6) :=
  C10_in_place true [1, 5, -128, -1, 0, 127, -5, 2, 2, 2, 2, 2, 2, 2] 1 6
    (by decide) (by decide)

/-- C11: the kernel cannot fail inside its documented domain.  On either path,
for every memory and every `blockSize` `n` within the source and the
destination buffer, the call returns a result (no load or store fails); the
cells read, the packed loads included, are exactly the source cells of index
`< n`, and the cells written are exactly the destination cells of index
`< n`. -/
theorem C11_no_failure (b : Bool) (mem : List Int) (pSrc pDst n : Nat)
    (hS : pSrc + n ≤ mem.length) (hD : pDst + n ≤ mem.length) :
    ∃ s tr, runT b ⟨mem, pSrc, pDst⟩ n = some (s, tr) ∧
      run b ⟨mem, pSrc, pDst⟩ n = some s ∧
      riscv_negate_q7 b mem pSrc pDst n = some s.mem ∧
      (∀ w p, Ev.rd w p ∈ tr → pSrc ≤ p ∧ p < pSrc + n) ∧
      (∀ w p, Ev.wr w p ∈ tr → pDst ≤ p ∧ p < pDst + n) ∧
      reads true tr ++ reads false tr = List.range' pSrc n ∧
      writes true tr ++ writes false tr = List.range' pDst n := by
  have key : ∃ s tr, runT b ⟨mem, pSrc, pDst⟩ n = some (s, tr) ∧
      reads true tr ++ reads false tr = List.range' pSrc n ∧
      writes true tr ++ writes false tr = List.range' pDst n := by
    cases b with
    | false =>
      obtain ⟨m, tr, hm, _, hr, hr', hw, hw', _, _⟩ := scalarLoopT_spec n mem pSrc pDst hS hD
      refine ⟨_, tr, hm, ?_, ?_⟩
      · rw [hr, hr', List.nil_append]
      · rw [hw, hw', List.nil_append]
    | true =>
      obtain ⟨m1, tr1, m2, tr2, _, _, hrun, _, a1, a2, a3, a4, _, _, b1, b2, b3, b4, _, _⟩ :=
        runT_wide_spec mem pSrc pDst n hS hD
      have hn : n % 4 + 4 * (n / 4) = n := Nat.mod_add_div n 4
      refine ⟨_, tr1 ++ tr2, hrun, ?_, ?_⟩
      · rw [reads_append, reads_append, a1, a2, b1, b2, List.append_nil, List.nil_append,
          List.range'_append_1, hn]
      · rw [writes_append, writes_append, a3, a4, b3, b4, List.append_nil, List.nil_append,
          List.range'_append_1, hn]
  obtain ⟨s, tr, hrun, hr, hw⟩ := key
  have hrun' : run b ⟨mem, pSrc, pDst⟩ n = some s := by
    rw [← runT_erase, hrun]
    rfl
  refine ⟨s, tr, hrun, hrun', ?_, ?_, ?_, hr, hw⟩
  · unfold riscv_negate_q7
    rw [hrun']
    rfl
  · intro w p hp
    have h1 : p ∈ reads true tr ++ reads false tr := by
      rw [List.mem_append]
      cases w with
      | true => exact Or.inl (mem_reads hp)
      | false => exact Or.inr (mem_reads hp)
    rw [hr, List.mem_range'_1] at h1
    exact h1
  · intro w p hp
    have h1 : p ∈ writes true tr ++ writes false tr := by
      rw [List.mem_append]
      cases w with
      | true => exact Or.inl (mem_writes hp)
      | false => exact Or.inr (mem_writes hp)
    rw [hw, List.mem_range'_1] at h1
    exact h1

theorem C11_no_failure_witness :
    ∃ s tr, runT true ⟨[4, -128, 6, 7, 8, 9, 0, 0, 0, 0, 0, 0, 0], 0, 7⟩ 6 = some (s, tr) ∧
      run true ⟨[4, -128, 6, 7, 8, 9, 0, 0, 0, 0, 0, 0, 0], 0, 7⟩ 6 = some s ∧
      riscv_negate_q7 true [4, -128, 6, 7, 8, 9, 0, 0, 0, 0, 0, 0, 0] 0 7 6 = some s.mem ∧
      (∀ w p, Ev.rd w p ∈ tr → 0 ≤ p ∧ p < 0 + 6) ∧
      (∀ w p, Ev.wr w p ∈ tr → 7 ≤ p ∧ p < 7 + 6) ∧
      reads true tr ++ reads false tr = List.range' 0 6 ∧
      writes true tr ++ writes false tr = List.range' 7 6 :=
  C11_no_failure true [4, -128, 6, 7, 8, 9, 0, 0, 0, 0, 0, 0, 0] 0 7 6 (by decide) (by decide)

/-- C12: zero is a fixed point of the kernel.  On either path, for every memory
whose source buffer holds Q7 values, every index `i < n` whose source cell
holds 0 gets 0 in the destination cell `i`; and `negate([0]) = [0]`. -/
theorem C12_zero_fixed (b : Bool) (mem : List Int) (pSrc pDst n : Nat)
    (hS : pSrc + n ≤ mem.length) (hD : pDst + n ≤ mem.length)
    (hDis : Distinct pSrc pDst n) (hQ : Q7Buf mem pSrc n) :
    (∃ m, riscv_negate_q7 b mem pSrc pDst n = some m ∧
      ∀ i, i < n → mem[pSrc + i]? = some 0 → m[pDst + i]? = some 0) ∧
    negate b [0] = some [0] := by
  constructor
  · obtain ⟨m, hm, _, hdst, _⟩ :=
      kernel_dst b mem pSrc pDst n hS hD (disjoint_noClobber hDis) hQ
    refine ⟨m, hm, fun i hi h0 => ?_⟩
    obtain ⟨v, hv, _, hw⟩ := hdst i hi
    rw [h0] at hv
    cases hv
    rw [hw]
    rfl
  · cases b <;> decide

theorem C12_zero_fixed_witness :
    (∃ m, riscv_negate_q7 true [0, 3, 0, -128, 0, 9, 9, 9, 9, 9] 0 5 5 = some m ∧
      ∀ i, i < 5 → [0, 3, 0, -128, 0, 9, 9, 9, 9, (9 : Int)][0 + i]? = some 0 →
        m[5 + i]? = some 0) ∧
    negate true [0] = some [0] :=
  C12_zero_fixed true [0, 3, 0, -128, 0, 9, 9, 9, 9, 9] 0 5 5
    (by decide) (by decide) (by decide) (by decide)

/-- C13: block-remainder decomposition.  For every `blockSize` `n` within both
buffers, `n >> 2 = n / 4`, `n % 4` is between 0 and 3 and
`4 * (n >> 2) + n % 4 = n` (both counts fit in 32 bits when `n` does).  On the
path compiled with `USE_DSP_RISCV` both loops run to their end: the unrolled
loop runs exactly `n >> 2` times and no scalar iteration, reading the source
cells and writing the destination cells of index `0 .. 4*(n/4)-1`, each once
and in order; then the scalar loop runs exactly `n % 4` times and no unrolled
iteration, over the cells of index `4*(n/4) .. n-1`, each once; and both
cursors end exactly `n` beyond their start. -/
theorem C13_block_remainder (mem : List Int) (pSrc pDst n : Nat)
    (hS : pSrc + n ≤ mem.length) (hD : pDst + n ≤ mem.length) :
    (n >>> 2 = n / 4 ∧ 0 ≤ n % 4 ∧ n % 4 ≤ 3 ∧ 4 * (n >>> 2) + n % 4 = n ∧
      (n < 2 ^ 32 → n >>> 2 < 2 ^ 32 ∧ n % 4 < 2 ^ 32)) ∧
    ∃ m1 tr1 m2 tr2,
      wideLoopT (n >>> 2) ⟨mem, pSrc, pDst⟩ =
        some (⟨m1, pSrc + 4 * (n / 4), pDst + 4 * (n / 4)⟩, tr1) ∧
      scalarLoopT (n % 4) ⟨m1, pSrc + 4 * (n / 4), pDst + 4 * (n / 4)⟩ =
        some (⟨m2, pSrc + n, pDst + n⟩, tr2) ∧
      runT true ⟨mem, pSrc, pDst⟩ n = some (⟨m2, pSrc + n, pDst + n⟩, tr1 ++ tr2) ∧
      run true ⟨mem, pSrc, pDst⟩ n = some ⟨m2, pSrc + n, pDst + n⟩ ∧
      (iters true tr1 = n >>> 2 ∧ iters false tr1 = 0) ∧
      (iters false tr2 = n % 4 ∧ iters true tr2 = 0) ∧
      (iters true (tr1 ++ tr2) = n >>> 2 ∧ iters false (tr1 ++ tr2) = n % 4) ∧
      (reads true (tr1 ++ tr2) = List.range' pSrc (4 * (n / 4)) ∧
        writes true (tr1 ++ tr2) = List.range' pDst (4 * (n / 4))) ∧
      (reads false (tr1 ++ tr2) = List.range' (pSrc + 4 * (n / 4)) (n % 4) ∧
        writes false (tr1 ++ tr2) = List.range' (pDst + 4 * (n / 4)) (n % 4)) := by
  have hq : n >>> 2 = n / 4 := by
    rw [Nat.shiftRight_eq_div_pow]
  have hr : n % 4 < 4 := Nat.mod_lt n (by decide)
  have hn : 4 * (n / 4) + n % 4 = n := Nat.div_add_mod n 4
  refine ⟨⟨hq, Nat.zero_le _, by omega, by omega, fun h => by omega⟩, ?_⟩
  obtain ⟨m1, tr1, m2, tr2, h1, h2, hrun, _, a1, a2, a3, a4, a5, a6, b1, b2, b3, b4, b5, b6⟩ :=
    runT_wide_spec mem pSrc pDst n hS hD
  refine ⟨m1, tr1, m2, tr2, h1, h2, hrun, ?_, ⟨by omega, a6⟩, ⟨b5, b6⟩, ⟨?_, ?_⟩, ⟨?_, ?_⟩,
    ⟨?_, ?_⟩⟩
  · rw [← runT_erase, hrun]
    rfl
  · rw [iters_append, a5, b6]
    omega
  · rw [iters_append, a6, b5]
    omega
  · rw [reads_append, a1, b2, List.append_nil]
  · rw [writes_append, a3, b4, List.append_nil]
  · rw [reads_append, a2, b1, List.nil_append]
  · rw [writes_append, a4, b3, List.nil_append]

theorem C13_block_remainder_witness :
    (11 >>> 2 = 11 / 4 ∧ 0 ≤ 11 % 4 ∧ 11 % 4 ≤ 3 ∧ 4 * (11 >>> 2) + 11 % 4 = 11 ∧
      (11 < 2 ^ 32 → 11 >>> 2 < 2 ^ 32 ∧ 11 % 4 < 2 ^ 32)) ∧
    ∃ m1 tr1 m2 tr2,
      wideLoopT (11 >>> 2) ⟨List.replicate 22 (-128), 0, 11⟩ =
        some (⟨m1, 0 + 4 * (11 / 4), 11 + 4 * (11 / 4)⟩, tr1) ∧
      scalarLoopT (11 % 4) ⟨m1, 0 + 4 * (11 / 4), 11 + 4 * (11 / 4)⟩ =
        some (⟨m2, 0 + 11, 11 + 11⟩, tr2) ∧
      runT true ⟨List.replicate 22 (-128), 0, 11⟩ 11 =
        some (⟨m2, 0 + 11, 11 + 11⟩, tr1 ++ tr2) ∧
      run true ⟨List.replicate 22 (-128), 0, 11⟩ 11 = some ⟨m2, 0 + 11, 11 + 11⟩ ∧
      (iters true tr1 = 11 >>> 2 ∧ iters false tr1 = 0) ∧
      (iters false tr2 = 11 % 4 ∧ iters true tr2 = 0) ∧
      (iters true (tr1 ++ tr2) = 11 >>> 2 ∧ iters false (tr1 ++ tr2) = 11 % 4) ∧
      (reads true (tr1 ++ tr2) = List.range' 0 (4 * (11 / 4)) ∧
        writes true (tr1 ++ tr2) = List.range' 11 (4 * (11 / 4))) ∧
      (reads false (tr1 ++ tr2) = List.range' (0 + 4 * (11 / 4)) (11 % 4) ∧
        writes false (tr1 ++ tr2) = List.range' (11 + 4 * (11 / 4)) (11 % 4)) :=
  C13_block_remainder (List.replicate 22 (-128)) 0 11 11 (by decide) (by decide)

/-- C14: the saturation check of the packed path on the negated lane is
equivalent to the check on the input.  For every 8-bit signed value `v`, the
wrapping negation `neg8(v) = ((-v + 128) mod 256) - 128` is -128 if and only if
`v` is -128, and is the exact `-v` for every other `v`; hence
`(neg8(v) == -128 ? 127 : neg8(v)) = (v == -128 ? 127 : -v)`, that is, the
expression stored for a lane equals the expression stored by the scalar
loop. -/
theorem C14_lane_check (v : Int) (hv : Q7 v) :
    neg8 v = (-v + 128) % 256 - 128 ∧
    (neg8 v = -128 ↔ v = -128) ∧
    (v ≠ -128 → neg8 v = -v) ∧
    (if neg8 v = -128 then 127 else neg8 v) = (if v = -128 then 127 else -v) ∧
    laneExpr (neg8 v) = scalarExpr v := by
  have h1 : laneExpr (neg8 v) = negRule v := laneExpr_neg8 hv
  have h2 : scalarExpr v = negRule v := scalarExpr_eq_negRule v
  refine ⟨rfl, ?_, ?_, ?_, by rw [h1, h2]⟩
  · unfold Q7 at hv
    unfold neg8
    omega
  · intro hne
    unfold Q7 at hv
    unfold neg8
    omega
  · exact h1

theorem C14_lane_check_witness :
    neg8 (-128) = (-(-128) + 128) % 256 - 128 ∧
    (neg8 (-128) = -128 ↔ (-128 : Int) = -128) ∧
    ((-128 : Int) ≠ -128 → neg8 (-128) = -(-128)) ∧
    (if neg8 (-128) = -128 then 127 else neg8 (-128)) =
      (if (-128 : Int) = -128 then 127 else -(-128)) ∧
    laneExpr (neg8 (-128)) = scalarExpr (-128) :=
  C14_lane_check (-128) (by decide)

/-- C15: the kernel never outputs -128.  On either path, for every memory whose
source buffer holds Q7 values and every index `i < n`, the destination cell `i`
holds a value in [-127, 127]; and a further call of the kernel on that output
negates each of its values exactly, with no saturation. -/
theorem C15_never_min (b : Bool) (mem : List Int) (pSrc pDst pOut n : Nat)
    (hS : pSrc + n ≤ mem.length) (hD : pDst + n ≤ mem.length)
    (hOut : pOut + n ≤ mem.length)
    (hDis : Distinct pSrc pDst n) (hDis2 : Distinct pDst pOut n)
    (hQ : Q7Buf mem pSrc n) :
    ∃ m1 m2, riscv_negate_q7 b mem pSrc pDst n = some m1 ∧
      riscv_negate_q7 b m1 pDst pOut n = some m2 ∧
      ∀ i, i < n → ∃ w, m1[pDst + i]? = some w ∧ w ≠ -128 ∧ -127 ≤ w ∧ w ≤ 127 ∧
        m2[pOut + i]? = some (-w) := by
  obtain ⟨m1, hm1, hlen1, hdst1, _⟩ :=
    kernel_dst b mem pSrc pDst n hS hD (disjoint_noClobber hDis) hQ
  obtain ⟨m2, hm2, _, hdst2, _⟩ :=
    kernel_dst b m1 pDst pOut n (by omega) (by omega) (disjoint_noClobber hDis2)
      (Q7Buf_out hdst1)
  refine ⟨m1, m2, hm1, hm2, fun i hi => ?_⟩
  obtain ⟨v, _, hq, hw⟩ := hdst1 i hi
  obtain ⟨w, hw', _, hz⟩ := hdst2 i hi
  rw [hw] at hw'
  cases hw'
  obtain ⟨h1, h2, h3⟩ := negRule_sym_range hq
  refine ⟨negRule v, hw, h1, h2, h3, ?_⟩
  rw [hz, negRule_exact h1]

theorem C15_never_min_witness :
    ∃ m1 m2, riscv_negate_q7 true
        [-128, 127, -127, 0, -128, 1, 9, 9, 9, 9, 9, 9, 9, 9, 9, 9, 9, 9] 0 6 6 = some m1 ∧
      riscv_negate_q7 true m1 6 12 6 = some m2 ∧
      ∀ i, i < 6 → ∃ w, m1[6 + i]? = some w ∧ w ≠ -128 ∧ -127 ≤ w ∧ w ≤ 127 ∧
        m2[12 + i]? = some (-w) :=
  C15_never_min true [-128, 127, -127, 0, -128, 1, 9, 9, 9, 9, 9, 9, 9, 9, 9, 9, 9, 9] 0 6 12 6
    (by decide) (by decide) (by decide) (by decide) (by decide) (by decide)

/-- C16: at the edge case double negation returns the clamped value,
`negate(negate([-128])) = [-127]`; and for every buffer of Q7 values, -128
included, three applications of the kernel give what one gives:
`negate(negate(negate(x))) = negate(x)`, also for three calls that go from a
buffer to a second one, back, and to the second one again. -/
theorem C16_thrice (b : Bool) (mem : List Int) (pA pB n : Nat)
    (hA : pA + n ≤ mem.length) (hB : pB + n ≤ mem.length)
    (hDis : Distinct pA pB n) (hQ : Q7Buf mem pA n) :
    (negate b [-128]).bind (negate b) = some [-127] ∧
    (∀ src : List Int, (∀ v ∈ src, Q7 v) → ∃ out, negate b src = some out ∧
      ((negate b src).bind (negate b)).bind (negate b) = some out) ∧
    (∃ m1 m2 m3, riscv_negate_q7 b mem pA pB n = some m1 ∧
      riscv_negate_q7 b m1 pB pA n = some m2 ∧
      riscv_negate_q7 b m2 pA pB n = some m3 ∧
      buf m3 pB n = buf m1 pB n) := by
  refine ⟨by cases b <;> decide, ?_, ?_⟩
  · intro src hsrc
    have h1 : ∀ v ∈ src.map negRule, Q7 v := by
      intro v hv
      rw [List.mem_map] at hv
      obtain ⟨u, hu, rfl⟩ := hv
      exact negRule_range (hsrc u hu)
    have h2 : ∀ v ∈ (src.map negRule).map negRule, Q7 v := by
      intro v hv
      rw [List.mem_map] at hv
      obtain ⟨u, hu, rfl⟩ := hv
      exact negRule_range (h1 u hu)
    refine ⟨src.map negRule, negate_eq b src hsrc, ?_⟩
    rw [negate_eq b src hsrc, Option.some_bind, negate_eq b _ h1, Option.some_bind,
      negate_eq b _ h2, List.map_map, List.map_map]
    congr 1
    apply List.map_congr_left
    intro v hv
    exact negRule_thrice (hsrc v hv)
  · obtain ⟨m1, hm1, hlen1, hdst1, _⟩ :=
      kernel_dst b mem pA pB n hA hB (disjoint_noClobber hDis) hQ
    obtain ⟨m2, hm2, hlen2, hdst2, _⟩ :=
      kernel_dst b m1 pB pA n (by omega) (by omega)
        (disjoint_noClobber (distinct_symm hDis)) (Q7Buf_out hdst1)
    obtain ⟨m3, hm3, _, hdst3, _⟩ :=
      kernel_dst b m2 pA pB n (by omega) (by omega) (disjoint_noClobber hDis)
        (Q7Buf_out hdst2)
    refine ⟨m1, m2, m3, hm1, hm2, hm3, ?_⟩
    apply List.ext_getElem?
    intro i
    rw [buf_getElem?, buf_getElem?]
    by_cases hi : i < n
    · obtain ⟨v, _, hq, h1⟩ := hdst1 i hi
      obtain ⟨v2, hv2, _, h2⟩ := hdst2 i hi
      obtain ⟨v3, hv3, _, h3⟩ := hdst3 i hi
      rw [h1] at hv2
      cases hv2
      rw [h2] at hv3
      cases hv3
      rw [if_pos hi, if_pos hi, h3, h1, negRule_thrice hq]
    · rw [if_neg hi, if_neg hi]

theorem C16_thrice_witness :
    (negate true [-128]).bind (negate true) = some [-127] ∧
    (∀ src : List Int, (∀ v ∈ src, Q7 v) → ∃ out, negate true src = some out ∧
      ((negate true src).bind (negate true)).bind (negate true) = some out) ∧
    (∃ m1 m2 m3, riscv_negate_q7 true [-128, 5, -127, 127, 0, -128, 0, 0, 0, 0, 0, 0] 0 6 6 =
        some m1 ∧
      riscv_negate_q7 true m1 6 0 6 = some m2 ∧
      riscv_negate_q7 true m2 0 6 6 = some m3 ∧
      buf m3 6 6 = buf m1 6 6) :=
  C16_thrice true [-128, 5, -127, 127, 0, -128, 0, 0, 0, 0, 0, 0] 0 6 6
    (by decide) (by decide) (by decide) (by decide)

/-- C17: the map of the kernel on one element is order-reversing and not
injective.  On either path, for all Q7 values `x` and `y` with outputs `x'` and
`y'`: `x ≤ y` gives `y' ≤ x'`; on [-127, 127] equal outputs come from equal
inputs; and two different inputs with equal outputs are -128 and -127, which
both give 127. -/
theorem C17_order (b : Bool) (x y : Int) (hx : Q7 x) (hy : Q7 y) :
    ∃ x' y', negate b [x] = some [x'] ∧ negate b [y] = some [y'] ∧
      (x ≤ y → y' ≤ x') ∧
      (-127 ≤ x → -127 ≤ y → x' = y' → x = y) ∧
      (x' = y' → x ≠ y → (x = -128 ∧ y = -127) ∨ (x = -127 ∧ y = -128)) ∧
      negate b [-128] = some [127] ∧ negate b [-127] = some [127] := by
  have h1 : negate b [x] = some [negRule x] := by
    rw [negate_eq b [x] (by simpa using hx)]
    rfl
  have h2 : negate b [y] = some [negRule y] := by
    rw [negate_eq b [y] (by simpa using hy)]
    rfl
  unfold Q7 at hx hy
  refine ⟨negRule x, negRule y, h1, h2, ?_, ?_, ?_, by cases b <;> decide,
    by cases b <;> decide⟩
  · intro hle
    unfold negRule
    split <;> split <;> omega
  · intro hx1 hy1
    unfold negRule
    split <;> split <;> omega
  · unfold negRule
    split <;> split <;> omega

theorem C17_order_witness :
    ∃ x' y', negate true [-128] = some [x'] ∧ negate true [-127] = some [y'] ∧
      ((-128 : Int) ≤ -127 → y' ≤ x') ∧
      ((-127 : Int) ≤ -128 → (-127 : Int) ≤ -127 → x' = y' → (-128 : Int) = -127) ∧
      (x' = y' → (-128 : Int) ≠ -127 →
        ((-128 : Int) = -128 ∧ (-127 : Int) = -127) ∨ ((-128 : Int) = -127 ∧ (-127 : Int) = -128)) ∧
      negate true [-128] = some [127] ∧ negate true [-127] = some [127] :=
  C17_order true (-128) (-127) (by decide) (by decide)

end NegateQ7
